import Mathlib

/-!
Shallow embedding of the `process-image` crate (src/lib.rs, src/access.rs).

Bytes are natural numbers below 256, buffers are lists of bytes.  The Rust
accessor types hold an exclusive mutable reference into the buffer together
with an eagerly decoded value; the reference part is modelled by explicit
buffer-level commit functions (`commitBitAt`, `commitWordAt`, ...), while the
Lean structures keep the decoded state that the Rust struct carries across its
lifetime.  The `allow_unaligned_tags` crate feature selects one of two
expansions of the `alignment_assert!` macro; it is modelled by a `strict`
boolean parameter threaded into the word/double-word/long-word tag operations,
which return `Except String` to capture the panic message of the strict
variant (and of an out-of-bounds slice index).
-/

set_option maxRecDepth 100000

namespace ProcessImage

/-- Little-endian decode, as `u16::from_le_bytes` / `u32::from_le_bytes` /
`u64::from_le_bytes` used by `WordMut::new`, `DWordMut::new`, `LWordMut::new`
in src/access.rs, generalized over the byte count. -/
def from_le_bytes : List Nat → Nat
  | [] => 0
  | b :: bs => b + 2 ^ 8 * from_le_bytes bs

/-- Little-endian encode of a `width`-byte unsigned integer, as
`u16::to_le_bytes` / `u32::to_le_bytes` / `u64::to_le_bytes` used by the
`Drop` impls of `WordMut`, `DWordMut`, `LWordMut` in src/access.rs. -/
def to_le_bytes : Nat → Nat → List Nat
  | 0, _ => []
  | w + 1, v => v % 2 ^ 8 :: to_le_bytes w (v / 2 ^ 8)

/-- Big-endian decode, as `u16::from_be_bytes` / `u32::from_be_bytes` /
`u64::from_be_bytes` used by the `tag!` read macro in src/lib.rs. -/
def from_be_bytes (bs : List Nat) : Nat :=
  bs.foldl (fun acc b => acc * 2 ^ 8 + b) 0

/-- Bit read `byte & (1 << index) != 0`, the body of the `X` arms of `tag!`
in src/lib.rs and of `BitMut::new` in src/access.rs. -/
def decode_bit (byte index : Nat) : Bool :=
  (byte &&& (1 <<< index)) != 0

/-- Read-modify-write of one bit performed by `BitMut::drop` in src/access.rs:
`*buf &= !(1 << index); *buf |= u8::from(value) << index;`.  The `u8`
complement `!(1 << index)` is `255 ^^^ (1 <<< index)`. -/
def encode_bit (byte index : Nat) (value : Bool) : Nat :=
  (byte &&& (255 ^^^ (1 <<< index))) ||| ((if value then 1 else 0) <<< index)

/-- `BitMut` (src/access.rs): the referenced byte (`buf`), the bit index, and
the decoded boolean held for the accessor's lifetime. -/
structure BitMut where
  buf : Nat
  index : Nat
  value : Bool
  deriving DecidableEq

/-- `BitMut::new`: decode the addressed bit eagerly. -/
def BitMut.new (buf index : Nat) : BitMut :=
  ⟨buf, index, decode_bit buf index⟩

/-- One overwrite of the held value through `DerefMut for BitMut`. -/
def BitMut.set (a : BitMut) (v : Bool) : BitMut :=
  { a with value := v }

/-- `Drop for BitMut`: the byte written back into the buffer. -/
def BitMut.drop (a : BitMut) : Nat :=
  encode_bit a.buf a.index a.value

/-- `WordMut` (src/access.rs): the decoded `u16` held for the accessor's
lifetime; the `&mut [u8; 2]` it writes through is modelled by
`commitWordAt`. -/
structure WordMut where
  value : Nat
  deriving DecidableEq

/-- `WordMut::new`: `value = u16::from_le_bytes(*buf)`. -/
def WordMut.new (buf : List Nat) : WordMut :=
  ⟨from_le_bytes buf⟩

/-- One overwrite of the held value through `DerefMut for WordMut`. -/
def WordMut.set (_ : WordMut) (v : Nat) : WordMut :=
  ⟨v⟩

/-- `Drop for WordMut`: `*buf = value.to_le_bytes()`. -/
def WordMut.drop (a : WordMut) : List Nat :=
  to_le_bytes 2 a.value

/-- `DWordMut` (src/access.rs), as `WordMut` but four bytes wide. -/
structure DWordMut where
  value : Nat
  deriving DecidableEq

/-- `DWordMut::new`: `value = u32::from_le_bytes(*buf)`. -/
def DWordMut.new (buf : List Nat) : DWordMut :=
  ⟨from_le_bytes buf⟩

/-- One overwrite of the held value through `DerefMut for DWordMut`. -/
def DWordMut.set (_ : DWordMut) (v : Nat) : DWordMut :=
  ⟨v⟩

/-- `Drop for DWordMut`: `*buf = value.to_le_bytes()`. -/
def DWordMut.drop (a : DWordMut) : List Nat :=
  to_le_bytes 4 a.value

/-- `LWordMut` (src/access.rs), as `WordMut` but eight bytes wide. -/
structure LWordMut where
  value : Nat
  deriving DecidableEq

/-- `LWordMut::new`: `value = u64::from_le_bytes(*buf)`. -/
def LWordMut.new (buf : List Nat) : LWordMut :=
  ⟨from_le_bytes buf⟩

/-- One overwrite of the held value through `DerefMut for LWordMut`. -/
def LWordMut.set (_ : LWordMut) (v : Nat) : LWordMut :=
  ⟨v⟩

/-- `Drop for LWordMut`: `*buf = value.to_le_bytes()`. -/
def LWordMut.drop (a : LWordMut) : List Nat :=
  to_le_bytes 8 a.value

/-- `tag!(buf, X, addr1, addr2)` (src/lib.rs): `buffer[addr1] & (1 << addr2) != 0`. -/
def tag_X (buf : List Nat) (addr1 addr2 : Nat) : Bool :=
  decode_bit (buf.getD addr1 0) addr2

/-- `tag!(buf, B, addr)` (src/lib.rs): `buffer[addr]`. -/
def tag_B (buf : List Nat) (addr : Nat) : Nat :=
  buf.getD addr 0

/-- `tag!(buf, W, addr)` (src/lib.rs): `alignment_assert!(2, addr)` followed by
`u16::from_be_bytes(buffer[addr..addr + 2].try_into().unwrap())`.  `strict`
selects the non-`allow_unaligned_tags` expansion of `alignment_assert!`. -/
def tag_W (strict : Bool) (buf : List Nat) (addr : Nat) : Except String Nat :=
  if strict && (addr % 2 != 0) then .error "Word address must be divisible by 2"
  else if addr + 2 ≤ buf.length then .ok (from_be_bytes (List.take 2 (List.drop addr buf)))
  else .error "index out of range"

/-- `tag!(buf, D, addr)` (src/lib.rs): `alignment_assert!(4, addr)` followed by
a big-endian `u32` decode of `buffer[addr..addr + 4]`. -/
def tag_D (strict : Bool) (buf : List Nat) (addr : Nat) : Except String Nat :=
  if strict && (addr % 4 != 0) then .error "Double word address must be divisible by 4"
  else if addr + 4 ≤ buf.length then .ok (from_be_bytes (List.take 4 (List.drop addr buf)))
  else .error "index out of range"

/-- `tag!(buf, L, addr)` (src/lib.rs): `alignment_assert!(8, addr)` followed by
a big-endian `u64` decode of `buffer[addr..addr + 8]`. -/
def tag_L (strict : Bool) (buf : List Nat) (addr : Nat) : Except String Nat :=
  if strict && (addr % 8 != 0) then .error "Long word address must be divisible by 8"
  else if addr + 8 ≤ buf.length then .ok (from_be_bytes (List.take 8 (List.drop addr buf)))
  else .error "index out of range"

/-- `tag_mut!(buf, X, addr1, addr2)` (src/lib.rs): `BitMut::new(&mut buffer[addr1], addr2)`. -/
def tagMut_X (buf : List Nat) (addr1 addr2 : Nat) : BitMut :=
  BitMut.new (buf.getD addr1 0) addr2

/-- `tag_mut!(buf, W, addr)` (src/lib.rs): `alignment_assert!(2, addr)` followed
by `WordMut::new` on `buffer[addr..addr + 2]`. -/
def tagMut_W (strict : Bool) (buf : List Nat) (addr : Nat) : Except String WordMut :=
  if strict && (addr % 2 != 0) then .error "Word address must be divisible by 2"
  else if addr + 2 ≤ buf.length then .ok (WordMut.new (List.take 2 (List.drop addr buf)))
  else .error "index out of range"

/-- `tag_mut!(buf, D, addr)` (src/lib.rs): `alignment_assert!(4, addr)` followed
by `DWordMut::new` on `buffer[addr..addr + 4]`. -/
def tagMut_D (strict : Bool) (buf : List Nat) (addr : Nat) : Except String DWordMut :=
  if strict && (addr % 4 != 0) then .error "Double word address must be divisible by 4"
  else if addr + 4 ≤ buf.length then .ok (DWordMut.new (List.take 4 (List.drop addr buf)))
  else .error "index out of range"

/-- `tag_mut!(buf, L, addr)` (src/lib.rs): `alignment_assert!(8, addr)` followed
by `LWordMut::new` on `buffer[addr..addr + 8]`. -/
def tagMut_L (strict : Bool) (buf : List Nat) (addr : Nat) : Except String LWordMut :=
  if strict && (addr % 8 != 0) then .error "Long word address must be divisible by 8"
  else if addr + 8 ≤ buf.length then .ok (LWordMut.new (List.take 8 (List.drop addr buf)))
  else .error "index out of range"

/-- Overwrite `bytes.length` bytes of `buf` starting at `addr`, the effect of a
multi-byte accessor's drop writing through its `&mut [u8; W]` into the
surrounding buffer. -/
def spliceAt (buf : List Nat) (addr : Nat) (bytes : List Nat) : List Nat :=
  buf.take addr ++ bytes ++ buf.drop (addr + bytes.length)

/-- End of scope of a `BitMut` obtained at byte address `addr1`: `Drop for
BitMut` stores `BitMut.drop a` into the referenced byte. -/
def commitBitAt (buf : List Nat) (addr1 : Nat) (a : BitMut) : List Nat :=
  buf.set addr1 (BitMut.drop a)

/-- End of scope of a `WordMut` obtained at byte address `addr`. -/
def commitWordAt (buf : List Nat) (addr : Nat) (a : WordMut) : List Nat :=
  spliceAt buf addr (WordMut.drop a)

/-- End of scope of a `DWordMut` obtained at byte address `addr`. -/
def commitDWordAt (buf : List Nat) (addr : Nat) (a : DWordMut) : List Nat :=
  spliceAt buf addr (DWordMut.drop a)

/-- End of scope of an `LWordMut` obtained at byte address `addr`. -/
def commitLWordAt (buf : List Nat) (addr : Nat) (a : LWordMut) : List Nat :=
  spliceAt buf addr (LWordMut.drop a)

/-- `*tag_mut!(buf, B, addr) = v` (src/lib.rs): byte tags hand out a plain
`&mut u8`, so a write stores the byte directly. -/
def setByteAt (buf : List Nat) (addr : Nat) (v : Nat) : List Nat :=
  buf.set addr v

/-- `TryFrom<&[u8]>` generated by `process_image!` (src/lib.rs): succeeds
exactly when the slice length equals the declared `SIZE`. -/
def pi_try_from (size : Nat) (s : List Nat) : Option (List Nat) :=
  if s.length = size then some s else none

/-- `From<&[u8; SIZE]>` generated by `process_image!` (src/lib.rs): total, it
wraps the array unchanged. -/
def pi_from_array (s : List Nat) : List Nat := s

/-- A sequence of overwrites of a `BitMut`'s held value during its lifetime. -/
def writesBit (a : BitMut) (vs : List Bool) : BitMut :=
  vs.foldl BitMut.set a

/-- A sequence of overwrites of a `WordMut`'s held value during its lifetime. -/
def writesWord (a : WordMut) (vs : List Nat) : WordMut :=
  vs.foldl WordMut.set a

/-- A sequence of overwrites of a `DWordMut`'s held value during its lifetime. -/
def writesDWord (a : DWordMut) (vs : List Nat) : DWordMut :=
  vs.foldl DWordMut.set a

/-- A sequence of overwrites of an `LWordMut`'s held value during its lifetime. -/
def writesLWord (a : LWordMut) (vs : List Nat) : LWordMut :=
  vs.foldl LWordMut.set a

/-- The last value held after a sequence of overwrites starting from `init`. -/
def lastHeld {α : Type} (init : α) (vs : List α) : α :=
  vs.foldl (fun _ v => v) init

/-! Helper lemmas. -/

theorem to_le_bytes_length (w v : Nat) : (to_le_bytes w v).length = w := by
  induction w generalizing v with
  | zero => rfl
  | succ w ih => simp [to_le_bytes, ih]

theorem from_le_bytes_to_le_bytes (w v : Nat) :
    from_le_bytes (to_le_bytes w v) = v % 2 ^ (8 * w) := by
  induction w generalizing v with
  | zero => simp [to_le_bytes, from_le_bytes, Nat.mod_one]
  | succ w ih =>
    rw [to_le_bytes, from_le_bytes, ih]
    have hp : 2 ^ (8 * (w + 1)) = 2 ^ 8 * 2 ^ (8 * w) := by ring
    rw [hp, Nat.mod_mul]

theorem to_le_bytes_from_le_bytes (bs : List Nat) (h : ∀ x ∈ bs, x < 2 ^ 8) :
    to_le_bytes bs.length (from_le_bytes bs) = bs := by
  induction bs with
  | nil => rfl
  | cons b bs ih =>
    have hb : b < 2 ^ 8 := h b (by simp)
    have hbs : ∀ x ∈ bs, x < 2 ^ 8 := fun x hx => h x (by simp [hx])
    have hmod : (b + 2 ^ 8 * from_le_bytes bs) % 2 ^ 8 = b := by
      rw [Nat.add_mul_mod_self_left, Nat.mod_eq_of_lt hb]
    have hdiv : (b + 2 ^ 8 * from_le_bytes bs) / 2 ^ 8 = from_le_bytes bs := by
      rw [Nat.add_mul_div_left _ _ (by norm_num : 0 < 2 ^ 8),
        Nat.div_eq_of_lt hb, Nat.zero_add]
    simp only [List.length_cons, to_le_bytes, from_le_bytes, hmod, hdiv, ih hbs]

theorem writesBit_eq (a : BitMut) (vs : List Bool) :
    writesBit a vs = ⟨a.buf, a.index, lastHeld a.value vs⟩ := by
  induction vs generalizing a with
  | nil => simp [writesBit, lastHeld]
  | cons v vs ih => simpa [writesBit, lastHeld, List.foldl] using ih (BitMut.set a v)

theorem writesWord_eq (a : WordMut) (vs : List Nat) :
    writesWord a vs = ⟨lastHeld a.value vs⟩ := by
  induction vs generalizing a with
  | nil => simp [writesWord, lastHeld]
  | cons v vs ih => simpa [writesWord, lastHeld, List.foldl] using ih (WordMut.set a v)

theorem writesDWord_eq (a : DWordMut) (vs : List Nat) :
    writesDWord a vs = ⟨lastHeld a.value vs⟩ := by
  induction vs generalizing a with
  | nil => simp [writesDWord, lastHeld]
  | cons v vs ih => simpa [writesDWord, lastHeld, List.foldl] using ih (DWordMut.set a v)

theorem writesLWord_eq (a : LWordMut) (vs : List Nat) :
    writesLWord a vs = ⟨lastHeld a.value vs⟩ := by
  induction vs generalizing a with
  | nil => simp [writesLWord, lastHeld]
  | cons v vs ih => simpa [writesLWord, lastHeld, List.foldl] using ih (LWordMut.set a v)

theorem spliceAt_getElem_left (buf bytes : List Nat) (addr j : Nat)
    (ha : addr ≤ buf.length) (hj : j < addr) :
    (spliceAt buf addr bytes).get? j = buf.get? j := by
  simp [spliceAt, List.get?_eq_getElem?, List.getElem?_append, List.getElem?_take,
    List.length_take, Nat.min_eq_left ha, hj]

theorem spliceAt_getElem_right (buf bytes : List Nat) (addr j : Nat)
    (hlen : addr + bytes.length ≤ buf.length) (hj : addr + bytes.length ≤ j) :
    (spliceAt buf addr bytes).get? j = buf.get? j := by
  have ha : addr ≤ buf.length := by omega
  have hlt : (List.take addr buf ++ bytes).length ≤ j := by
    simp only [List.length_append, List.length_take]
    omega
  rw [spliceAt, List.get?_eq_getElem?, List.getElem?_append_right hlt,
    List.getElem?_drop, List.get?_eq_getElem?]
  congr 1
  simp only [List.length_append, List.length_take]
  omega

theorem drop_take_cons (buf : List Nat) (addr w : Nat) (h : addr < buf.length) :
    List.take (w + 1) (List.drop addr buf)
      = buf.getD addr 0 :: List.take w (List.drop (addr + 1) buf) := by
  rw [List.drop_eq_getElem_cons h, List.take_succ_cons]
  congr 1
  simp [List.getD_eq_getElem?_getD, List.getElem?_eq_getElem h]

theorem drop_take_map (buf : List Nat) (addr w : Nat) (h : addr + w ≤ buf.length) :
    List.take w (List.drop addr buf)
      = (List.range w).map (fun k => buf.getD (addr + k) 0) := by
  induction w generalizing addr with
  | zero => simp
  | succ w ih =>
    rw [drop_take_cons buf addr w (by omega), ih (addr + 1) (by omega),
      List.range_succ_eq_map]
    simp only [List.map_cons, List.map_map, Nat.add_zero]
    congr 1
    have hf : (fun k => buf.getD (addr + 1 + k) 0)
        = ((fun k => buf.getD (addr + k) 0) ∘ Nat.succ) := by
      funext k
      simp only [Function.comp_apply]
      congr 1
      omega
    rw [hf]

/-! Claim theorems. -/

/-- Claim C1, refuted by the code as written: the claim states that the `tag!`
read path and the scoped accessors use one identical byte order for every
multi-byte width.  On the bytes `[0xDE, 0xAD]` the read path decodes
big-endian `0xDEAD` while `WordMut::new` decodes little-endian `0xADDE`, and
the bytes committed for a held value `0xDEAD` are decoded back by the read
path as `0xADDE`; the double-word and long-word accessors disagree with the
read path in the same way.  The crate's documentation ("All data is accessed
in big-endian byte order") and its tests (`tag_macro_smoke1`,
`pi_macro_smoke1`) require the two paths to agree, so this is a defect of the
`from_le_bytes`/`to_le_bytes` calls in src/access.rs. -/
theorem word_byte_order_mismatch :
    tag_W true [0x80, 0x55, 0xDE, 0xAD] 2 = .ok 0xDEAD
    ∧ tagMut_W true [0x80, 0x55, 0xDE, 0xAD] 2 = .ok (WordMut.new [0xDE, 0xAD])
    ∧ (WordMut.new [0xDE, 0xAD]).value = 0xADDE
    ∧ (0xADDE : Nat) ≠ 0xDEAD
    ∧ from_be_bytes (WordMut.drop ⟨0xDEAD⟩) = 0xADDE
    ∧ (DWordMut.new [0xDE, 0xAD, 0xBE, 0xEF]).value
        ≠ from_be_bytes [0xDE, 0xAD, 0xBE, 0xEF]
    ∧ (LWordMut.new [0xDE, 0xAD, 0xBE, 0xEF, 0x00, 0xC0, 0xFF, 0xEE]).value
        ≠ from_be_bytes [0xDE, 0xAD, 0xBE, 0xEF, 0x00, 0xC0, 0xFF, 0xEE] :=
  ⟨rfl, rfl, rfl, by decide, rfl, by decide, by decide⟩

/-- Claim C2, refuted by the code as written: on the buffer
`[0x80, 0x55, 0xDE, 0xAD]` the read of the word at offset 2 does return
`0xDEAD`, but committing `1337` through the word accessor obtained at offset 2
leaves the buffer `[0x80, 0x55, 0x39, 0x05]` (little-endian bytes of 1337),
not the claimed `[0x80, 0x55, 0x05, 0x39]`.  The crate's own test
`pi_macro_smoke1` runs exactly this scenario and asserts the claimed result,
so this is a defect of `Drop for WordMut` in src/access.rs. -/
theorem scenario_b_little_endian_commit :
    tag_W true [0x80, 0x55, 0xDE, 0xAD] 2 = .ok 0xDEAD
    ∧ tagMut_W true [0x80, 0x55, 0xDE, 0xAD] 2 = .ok (WordMut.new [0xDE, 0xAD])
    ∧ commitWordAt [0x80, 0x55, 0xDE, 0xAD] 2
        (WordMut.set (WordMut.new [0xDE, 0xAD]) 1337) = [0x80, 0x55, 0x39, 0x05]
    ∧ ([0x80, 0x55, 0x39, 0x05] : List Nat) ≠ [0x80, 0x55, 0x05, 0x39] :=
  ⟨rfl, rfl, rfl, by decide⟩

/-- Claim C7: the bit read returns true exactly when `byte & (1 << index)` is
nonzero, and on the buffer `[0x55, 0xAA, 0x00, 0xFF]` bit 0 of byte 0 reads
true, bit 1 of byte 0 reads false, and after committing a bit accessor that
sets bit 7 of byte 2 the byte at offset 2 reads `0x80`. -/
theorem bit_read_spec :
    (∀ (buf : List Nat) (addr1 addr2 : Nat),
        tag_X buf addr1 addr2 = true ↔ buf.getD addr1 0 &&& 2 ^ addr2 ≠ 0)
    ∧ tag_X [0x55, 0xAA, 0x00, 0xFF] 0 0 = true
    ∧ tag_X [0x55, 0xAA, 0x00, 0xFF] 0 1 = false
    ∧ tag_B (commitBitAt [0x55, 0xAA, 0x00, 0xFF] 2
        (BitMut.set (tagMut_X [0x55, 0xAA, 0x00, 0xFF] 2 7) true)) 2 = 0x80 := by
  refine ⟨fun buf a1 a2 => ?_, by decide, by decide, by decide⟩
  simp [tag_X, decode_bit, Nat.shiftLeft_eq, bne_iff_ne]

/-- Claim C8: constructing a process-image view of declared size `size` from a
slice succeeds exactly when the slice length equals `size` (in particular a
4-byte view fails from 3- and 5-byte slices and succeeds from a 4-byte slice),
and on any array of the declared size the fallible path succeeds and agrees
with the infallible array constructor. -/
theorem view_size_check :
    (∀ (size : Nat) (s : List Nat), (pi_try_from size s).isSome ↔ s.length = size)
    ∧ (∀ (size : Nat) (a : List Nat), a.length = size →
        pi_try_from size a = some (pi_from_array a))
    ∧ pi_try_from 4 [1, 2, 3] = none
    ∧ pi_try_from 4 [1, 2, 3, 4, 5] = none
    ∧ pi_try_from 4 [1, 2, 3, 4] = some [1, 2, 3, 4] := by
  refine ⟨fun size s => ?_, fun size a h => ?_, by decide, by decide, by decide⟩
  · by_cases h : s.length = size <;> simp [pi_try_from, h]
  · simp [pi_try_from, pi_from_array, h]

/-- Witness for `view_size_check` at the declared size 4 and a concrete
4-byte array. -/
theorem view_size_check_witness :
    ((pi_try_from 4 [9, 9, 9, 9]).isSome ↔ ([9, 9, 9, 9] : List Nat).length = 4)
    ∧ pi_try_from 4 [9, 9, 9, 9] = some (pi_from_array [9, 9, 9, 9]) :=
  ⟨view_size_check.1 4 [9, 9, 9, 9], view_size_check.2.1 4 [9, 9, 9, 9] (by decide)⟩

/-- Claim C3: for every accessor variant, every initial content of the
referenced byte range, and every sequence of overwrites of the held value
during the accessor's lifetime, the single unconditional write-back performed
at end of scope stores exactly the encoding of the last held value — the
construction-time decode when the sequence is empty — so no intermediate
value is visible afterwards. -/
theorem commit_last_held :
    (∀ (b i : Nat) (vs : List Bool),
        BitMut.drop (writesBit (BitMut.new b i) vs)
          = encode_bit b i (lastHeld (decode_bit b i) vs))
    ∧ (∀ (bs : List Nat) (vs : List Nat),
        WordMut.drop (writesWord (WordMut.new bs) vs)
          = to_le_bytes 2 (lastHeld (from_le_bytes bs) vs))
    ∧ (∀ (bs : List Nat) (vs : List Nat),
        DWordMut.drop (writesDWord (DWordMut.new bs) vs)
          = to_le_bytes 4 (lastHeld (from_le_bytes bs) vs))
    ∧ (∀ (bs : List Nat) (vs : List Nat),
        LWordMut.drop (writesLWord (LWordMut.new bs) vs)
          = to_le_bytes 8 (lastHeld (from_le_bytes bs) vs)) := by
  refine ⟨fun b i vs => ?_, fun bs vs => ?_, fun bs vs => ?_, fun bs vs => ?_⟩
  · rw [writesBit_eq]; rfl
  · rw [writesWord_eq]; rfl
  · rw [writesDWord_eq]; rfl
  · rw [writesLWord_eq]; rfl

/-- Exhaustive check of the bit-level effect of `BitMut::drop` over all byte
values, bit indices and held booleans. -/
theorem encode_bit_testBit :
    ∀ b < 256, ∀ i < 8, ∀ v : Bool,
      ((encode_bit b i v).testBit i = v
        ∧ ∀ j, j < 8 → j ≠ i → (encode_bit b i v).testBit j = b.testBit j) := by
  decide

/-- Claim C4: committing a bit accessor that holds `v` over byte `b` at bit
index `i` writes a byte whose bit `i` equals `v` while each of the seven
other bit positions keeps its value from `b` (the commit clears the target
bit and then sets it exactly when `v` is true). -/
theorem bit_commit_isolation (b i : Nat) (v : Bool) (hb : b < 256) (hi : i < 8) :
    (BitMut.drop ⟨b, i, v⟩).testBit i = v
    ∧ ∀ j, j < 8 → j ≠ i → (BitMut.drop ⟨b, i, v⟩).testBit j = b.testBit j :=
  encode_bit_testBit b hb i hi v

/-- Witness for `bit_commit_isolation` at byte `0xAB`, bit 3, value true. -/
theorem bit_commit_isolation_witness :
    (BitMut.drop ⟨0xAB, 3, true⟩).testBit 3 = true
    ∧ ∀ j, j < 8 → j ≠ 3 → (BitMut.drop ⟨0xAB, 3, true⟩).testBit j = (0xAB : Nat).testBit j :=
  bit_commit_isolation 0xAB 3 true (by decide) (by decide)

/-- Claim C5: for each width, decoding the bytes produced by an accessor's
commit recovers the committed value — the bit read-modify-write followed by
the bit read returns the written boolean; a byte stored through the direct
byte reference is read back unchanged; and for word, double word and long
word, constructing an accessor on the bytes committed for `v` decodes `v`
again. -/
theorem decode_encode_roundtrip :
    (∀ b < 2 ^ 8, ∀ i < 8, ∀ v : Bool, decode_bit (encode_bit b i v) i = v)
    ∧ (∀ (buf : List Nat) (addr v : Nat), addr < buf.length →
        tag_B (setByteAt buf addr v) addr = v)
    ∧ (∀ v < 2 ^ 16, (WordMut.new (WordMut.drop ⟨v⟩)).value = v)
    ∧ (∀ v < 2 ^ 32, (DWordMut.new (DWordMut.drop ⟨v⟩)).value = v)
    ∧ (∀ v < 2 ^ 64, (LWordMut.new (LWordMut.drop ⟨v⟩)).value = v) := by
  refine ⟨by decide, fun buf addr v h => ?_, fun v hv => ?_, fun v hv => ?_, fun v hv => ?_⟩
  · simp [tag_B, setByteAt, List.getD_eq_getElem?_getD, List.getElem?_set_eq_of_lt _ h]
  · show from_le_bytes (to_le_bytes 2 v) = v
    rw [from_le_bytes_to_le_bytes]
    exact Nat.mod_eq_of_lt (by simpa using hv)
  · show from_le_bytes (to_le_bytes 4 v) = v
    rw [from_le_bytes_to_le_bytes]
    exact Nat.mod_eq_of_lt (by simpa using hv)
  · show from_le_bytes (to_le_bytes 8 v) = v
    rw [from_le_bytes_to_le_bytes]
    exact Nat.mod_eq_of_lt (by simpa using hv)

/-- Witness for `decode_encode_roundtrip` at concrete values of every width. -/
theorem decode_encode_roundtrip_witness :
    decode_bit (encode_bit 0x5A 6 true) 6 = true
    ∧ tag_B (setByteAt [1, 2, 3] 1 0xEE) 1 = 0xEE
    ∧ (WordMut.new (WordMut.drop ⟨0xBEEF⟩)).value = 0xBEEF
    ∧ (DWordMut.new (DWordMut.drop ⟨0xDEADBEEF⟩)).value = 0xDEADBEEF
    ∧ (LWordMut.new (LWordMut.drop ⟨0x0123456789ABCDEF⟩)).value = 0x0123456789ABCDEF :=
  ⟨decode_encode_roundtrip.1 0x5A (by decide) 6 (by decide) true,
   decode_encode_roundtrip.2.1 [1, 2, 3] 1 0xEE (by decide),
   decode_encode_roundtrip.2.2.1 0xBEEF (by decide),
   decode_encode_roundtrip.2.2.2.1 0xDEADBEEF (by decide),
   decode_encode_roundtrip.2.2.2.2 0x0123456789ABCDEF (by decide)⟩

/-- Claim C6: in the strict (default) build, every word, double-word or
long-word read or write-accessor construction at an offset not divisible by
its width fails with the message naming the expected divisor — for every
buffer, of any length, so before any buffer access — while in the relaxed
(`allow_unaligned_tags`) build no alignment check is made and the same call
succeeds, decoding exactly the bytes at offsets `addr`, `addr + 1`, ... . -/
theorem alignment_enforcement :
    (∀ (buf : List Nat) (addr : Nat), addr % 2 ≠ 0 →
        tag_W true buf addr = .error "Word address must be divisible by 2"
        ∧ tagMut_W true buf addr = .error "Word address must be divisible by 2")
    ∧ (∀ (buf : List Nat) (addr : Nat), addr % 4 ≠ 0 →
        tag_D true buf addr = .error "Double word address must be divisible by 4"
        ∧ tagMut_D true buf addr = .error "Double word address must be divisible by 4")
    ∧ (∀ (buf : List Nat) (addr : Nat), addr % 8 ≠ 0 →
        tag_L true buf addr = .error "Long word address must be divisible by 8"
        ∧ tagMut_L true buf addr = .error "Long word address must be divisible by 8")
    ∧ (∀ (buf : List Nat) (addr : Nat), addr + 2 ≤ buf.length →
        tag_W false buf addr
          = .ok (from_be_bytes [buf.getD addr 0, buf.getD (addr + 1) 0])
        ∧ tagMut_W false buf addr
          = .ok (WordMut.new [buf.getD addr 0, buf.getD (addr + 1) 0]))
    ∧ (∀ (buf : List Nat) (addr : Nat), addr + 4 ≤ buf.length →
        tag_D false buf addr
          = .ok (from_be_bytes [buf.getD addr 0, buf.getD (addr + 1) 0,
              buf.getD (addr + 2) 0, buf.getD (addr + 3) 0])
        ∧ tagMut_D false buf addr
          = .ok (DWordMut.new [buf.getD addr 0, buf.getD (addr + 1) 0,
              buf.getD (addr + 2) 0, buf.getD (addr + 3) 0]))
    ∧ (∀ (buf : List Nat) (addr : Nat), addr + 8 ≤ buf.length →
        tag_L false buf addr
          = .ok (from_be_bytes [buf.getD addr 0, buf.getD (addr + 1) 0,
              buf.getD (addr + 2) 0, buf.getD (addr + 3) 0, buf.getD (addr + 4) 0,
              buf.getD (addr + 5) 0, buf.getD (addr + 6) 0, buf.getD (addr + 7) 0])
        ∧ tagMut_L false buf addr
          = .ok (LWordMut.new [buf.getD addr 0, buf.getD (addr + 1) 0,
              buf.getD (addr + 2) 0, buf.getD (addr + 3) 0, buf.getD (addr + 4) 0,
              buf.getD (addr + 5) 0, buf.getD (addr + 6) 0, buf.getD (addr + 7) 0])) := by
  refine ⟨fun buf addr h => ?_, fun buf addr h => ?_, fun buf addr h => ?_,
    fun buf addr h => ?_, fun buf addr h => ?_, fun buf addr h => ?_⟩
  · have hb : (addr % 2 != 0) = true := by simpa using h
    exact ⟨by simp [tag_W, hb], by simp [tagMut_W, hb]⟩
  · have hb : (addr % 4 != 0) = true := by simpa using h
    exact ⟨by simp [tag_D, hb], by simp [tagMut_D, hb]⟩
  · have hb : (addr % 8 != 0) = true := by simpa using h
    exact ⟨by simp [tag_L, hb], by simp [tagMut_L, hb]⟩
  · have hlist : List.take 2 (List.drop addr buf)
        = [buf.getD addr 0, buf.getD (addr + 1) 0] := by
      rw [drop_take_map buf addr 2 h]
      simp [List.range_succ]
    exact ⟨by simp [tag_W, hlist, h], by simp [tagMut_W, hlist, h]⟩
  · have hlist : List.take 4 (List.drop addr buf)
        = [buf.getD addr 0, buf.getD (addr + 1) 0,
            buf.getD (addr + 2) 0, buf.getD (addr + 3) 0] := by
      rw [drop_take_map buf addr 4 h]
      simp [List.range_succ]
    exact ⟨by simp [tag_D, hlist, h], by simp [tagMut_D, hlist, h]⟩
  · have hlist : List.take 8 (List.drop addr buf)
        = [buf.getD addr 0, buf.getD (addr + 1) 0,
            buf.getD (addr + 2) 0, buf.getD (addr + 3) 0, buf.getD (addr + 4) 0,
            buf.getD (addr + 5) 0, buf.getD (addr + 6) 0, buf.getD (addr + 7) 0] := by
      rw [drop_take_map buf addr 8 h]
      simp [List.range_succ]
    exact ⟨by simp [tag_L, hlist, h], by simp [tagMut_L, hlist, h]⟩

/-- Witness for `alignment_enforcement` on a 12-byte buffer: odd offset 1 is
rejected with the word message in strict mode and decoded in relaxed mode;
offsets 2 and 4 are likewise rejected for double and long words. -/
theorem alignment_enforcement_witness :
    (tag_W true [0xDE, 0xAD, 0xBE, 0xEF, 4, 5, 6, 7, 8, 9, 10, 11] 1
        = .error "Word address must be divisible by 2"
      ∧ tagMut_W true [0xDE, 0xAD, 0xBE, 0xEF, 4, 5, 6, 7, 8, 9, 10, 11] 1
        = .error "Word address must be divisible by 2")
    ∧ (tag_D true [0xDE, 0xAD, 0xBE, 0xEF, 4, 5, 6, 7, 8, 9, 10, 11] 2
        = .error "Double word address must be divisible by 4"
      ∧ tagMut_D true [0xDE, 0xAD, 0xBE, 0xEF, 4, 5, 6, 7, 8, 9, 10, 11] 2
        = .error "Double word address must be divisible by 4")
    ∧ (tag_L true [0xDE, 0xAD, 0xBE, 0xEF, 4, 5, 6, 7, 8, 9, 10, 11] 4
        = .error "Long word address must be divisible by 8"
      ∧ tagMut_L true [0xDE, 0xAD, 0xBE, 0xEF, 4, 5, 6, 7, 8, 9, 10, 11] 4
        = .error "Long word address must be divisible by 8")
    ∧ (tag_W false [0xDE, 0xAD, 0xBE, 0xEF, 4, 5, 6, 7, 8, 9, 10, 11] 1
        = .ok (from_be_bytes
            [[0xDE, 0xAD, 0xBE, 0xEF, 4, 5, 6, 7, 8, 9, 10, 11].getD 1 0,
              [0xDE, 0xAD, 0xBE, 0xEF, 4, 5, 6, 7, 8, 9, 10, 11].getD (1 + 1) 0])
      ∧ tagMut_W false [0xDE, 0xAD, 0xBE, 0xEF, 4, 5, 6, 7, 8, 9, 10, 11] 1
        = .ok (WordMut.new
            [[0xDE, 0xAD, 0xBE, 0xEF, 4, 5, 6, 7, 8, 9, 10, 11].getD 1 0,
              [0xDE, 0xAD, 0xBE, 0xEF, 4, 5, 6, 7, 8, 9, 10, 11].getD (1 + 1) 0])) :=
  ⟨alignment_enforcement.1 [0xDE, 0xAD, 0xBE, 0xEF, 4, 5, 6, 7, 8, 9, 10, 11] 1 (by decide),
   alignment_enforcement.2.1 [0xDE, 0xAD, 0xBE, 0xEF, 4, 5, 6, 7, 8, 9, 10, 11] 2 (by decide),
   alignment_enforcement.2.2.1 [0xDE, 0xAD, 0xBE, 0xEF, 4, 5, 6, 7, 8, 9, 10, 11] 4 (by decide),
   alignment_enforcement.2.2.2.1 [0xDE, 0xAD, 0xBE, 0xEF, 4, 5, 6, 7, 8, 9, 10, 11] 1 (by decide)⟩

/-- Claim C9: an accessor that is constructed and dropped without its held
value ever being modified writes back exactly the bytes it decoded, for every
variant and every well-formed initial content of the referenced range (for
the bit variant, the whole containing byte is reproduced). -/
theorem untouched_commit_identity :
    (∀ b < 2 ^ 8, ∀ i < 8, BitMut.drop (BitMut.new b i) = b)
    ∧ (∀ bs : List Nat, bs.length = 2 → (∀ x ∈ bs, x < 2 ^ 8) →
        WordMut.drop (WordMut.new bs) = bs)
    ∧ (∀ bs : List Nat, bs.length = 4 → (∀ x ∈ bs, x < 2 ^ 8) →
        DWordMut.drop (DWordMut.new bs) = bs)
    ∧ (∀ bs : List Nat, bs.length = 8 → (∀ x ∈ bs, x < 2 ^ 8) →
        LWordMut.drop (LWordMut.new bs) = bs) := by
  refine ⟨by decide, fun bs hl hb => ?_, fun bs hl hb => ?_, fun bs hl hb => ?_⟩
  · show to_le_bytes 2 (from_le_bytes bs) = bs
    rw [← hl]
    exact to_le_bytes_from_le_bytes bs hb
  · show to_le_bytes 4 (from_le_bytes bs) = bs
    rw [← hl]
    exact to_le_bytes_from_le_bytes bs hb
  · show to_le_bytes 8 (from_le_bytes bs) = bs
    rw [← hl]
    exact to_le_bytes_from_le_bytes bs hb

/-- Witness for `untouched_commit_identity` on concrete byte ranges. -/
theorem untouched_commit_identity_witness :
    BitMut.drop (BitMut.new 0xC3 5) = 0xC3
    ∧ WordMut.drop (WordMut.new [0xDE, 0xAD]) = [0xDE, 0xAD]
    ∧ DWordMut.drop (DWordMut.new [1, 2, 3, 4]) = [1, 2, 3, 4]
    ∧ LWordMut.drop (LWordMut.new [1, 2, 3, 4, 5, 6, 7, 8]) = [1, 2, 3, 4, 5, 6, 7, 8] :=
  ⟨untouched_commit_identity.1 0xC3 (by decide) 5 (by decide),
   untouched_commit_identity.2.1 [0xDE, 0xAD] (by decide) (by decide),
   untouched_commit_identity.2.2.1 [1, 2, 3, 4] (by decide) (by decide),
   untouched_commit_identity.2.2.2 [1, 2, 3, 4, 5, 6, 7, 8] (by decide) (by decide)⟩

/-- Claim C10: the write-back of a scoped accessor changes only its own
referenced range — the single containing byte for the bit variant, and the
`W` bytes starting at the byte offset for the width-`W` variants; every byte
outside that range is unchanged after the accessor's scope ends, for every
buffer, in-bounds address and committed value. -/
theorem commit_frame :
    (∀ (buf : List Nat) (addr1 : Nat) (a : BitMut) (j : Nat), j ≠ addr1 →
        (commitBitAt buf addr1 a).get? j = buf.get? j)
    ∧ (∀ (buf : List Nat) (addr : Nat) (a : WordMut) (j : Nat),
        addr + 2 ≤ buf.length → j < addr ∨ addr + 2 ≤ j →
        (commitWordAt buf addr a).get? j = buf.get? j)
    ∧ (∀ (buf : List Nat) (addr : Nat) (a : DWordMut) (j : Nat),
        addr + 4 ≤ buf.length → j < addr ∨ addr + 4 ≤ j →
        (commitDWordAt buf addr a).get? j = buf.get? j)
    ∧ (∀ (buf : List Nat) (addr : Nat) (a : LWordMut) (j : Nat),
        addr + 8 ≤ buf.length → j < addr ∨ addr + 8 ≤ j →
        (commitLWordAt buf addr a).get? j = buf.get? j) := by
  refine ⟨fun buf addr1 a j hj => ?_, fun buf addr a j hlen hj => ?_,
    fun buf addr a j hlen hj => ?_, fun buf addr a j hlen hj => ?_⟩
  · simp [commitBitAt, List.get?_eq_getElem?, List.getElem?_set_ne (Ne.symm hj)]
  · rcases hj with hj | hj
    · exact spliceAt_getElem_left buf (WordMut.drop a) addr j (by omega) hj
    · exact spliceAt_getElem_right buf (WordMut.drop a) addr j
        (by simp only [WordMut.drop, to_le_bytes_length]; omega)
        (by simp only [WordMut.drop, to_le_bytes_length]; omega)
  · rcases hj with hj | hj
    · exact spliceAt_getElem_left buf (DWordMut.drop a) addr j (by omega) hj
    · exact spliceAt_getElem_right buf (DWordMut.drop a) addr j
        (by simp only [DWordMut.drop, to_le_bytes_length]; omega)
        (by simp only [DWordMut.drop, to_le_bytes_length]; omega)
  · rcases hj with hj | hj
    · exact spliceAt_getElem_left buf (LWordMut.drop a) addr j (by omega) hj
    · exact spliceAt_getElem_right buf (LWordMut.drop a) addr j
        (by simp only [LWordMut.drop, to_le_bytes_length]; omega)
        (by simp only [LWordMut.drop, to_le_bytes_length]; omega)

/-- Witness for `commit_frame` on concrete buffers, addresses and values. -/
theorem commit_frame_witness :
    (commitBitAt [10, 20, 30, 40] 1 ⟨20, 0, true⟩).get? 3
        = ([10, 20, 30, 40] : List Nat).get? 3
    ∧ (commitWordAt [10, 20, 30, 40] 2 ⟨0xFFFF⟩).get? 0
        = ([10, 20, 30, 40] : List Nat).get? 0
    ∧ (commitDWordAt [10, 20, 30, 40, 50] 0 ⟨0xAABBCCDD⟩).get? 4
        = ([10, 20, 30, 40, 50] : List Nat).get? 4
    ∧ (commitLWordAt [1, 2, 3, 4, 5, 6, 7, 8, 9] 0 ⟨0xE0E1E2E3E4E5E6E7⟩).get? 8
        = ([1, 2, 3, 4, 5, 6, 7, 8, 9] : List Nat).get? 8 :=
  ⟨commit_frame.1 [10, 20, 30, 40] 1 ⟨20, 0, true⟩ 3 (by decide),
   commit_frame.2.1 [10, 20, 30, 40] 2 ⟨0xFFFF⟩ 0 (by decide) (Or.inl (by decide)),
   commit_frame.2.2.1 [10, 20, 30, 40, 50] 0 ⟨0xAABBCCDD⟩ 4 (by decide) (Or.inr (by decide)),
   commit_frame.2.2.2 [1, 2, 3, 4, 5, 6, 7, 8, 9] 0 ⟨0xE0E1E2E3E4E5E6E7⟩ 8
     (by decide) (Or.inr (by decide))⟩

end ProcessImage
